import Mathlib

/-!
Verification of the `ByteArray` binary cursor (src/unnamed/part_000).

The TypeScript class is shallowly embedded: the mutable instance state
becomes the structure `AsData.ByteArray`; every method that can throw is a
function `ByteArray → Except Err α × ByteArray`, so an exception carries
the state as mutated up to the point of the throw (JS objects keep the
mutations made before an exception propagates).  JS `number` values that
hold byte offsets and lengths are `Nat`; values that can be negative
(signed reads, the `len` argument of `validate`) are `Int`.
-/

set_option maxRecDepth 16000
set_option maxHeartbeats 1000000

deriving instance DecidableEq for Except

namespace AsData

/-- Endianness tag (`ByteArray.BIG_ENDIAN` / `ByteArray.LITTLE_ENDIAN`). -/
inductive Endian where
  | big
  | little
deriving DecidableEq, Repr, BEq

/-- The exceptions the TypeScript code can throw: `Error #2030: End of file
was encountered.` (from `validate`), the `RangeError` a JS `DataView` or
typed-array access throws when out of bounds, `EncodingError` (from
`encoderError`) and `DecodingError` (from `decoderError` in fatal mode). -/
inductive Err where
  | eof
  | range
  | encoding (codePoint : Nat)
  | decoding
deriving DecidableEq, Repr

/-- A JS `DataView`: a window of `byteLength` bytes starting at
`byteOffset` into a backing `ArrayBuffer` (`buffer`, a list of bytes). -/
structure DataViewT where
  buffer : List Nat
  byteOffset : Nat
  byteLength : Nat
deriving DecidableEq, Repr

/-- `DataView.prototype.getUint8`. -/
def DataViewT.getUint8 (d : DataViewT) (idx : Nat) : Except Err Nat :=
  if idx + 1 ≤ d.byteLength then .ok (d.buffer.getD (d.byteOffset + idx) 0)
  else .error .range

/-- `DataView.prototype.setUint8` (the stored byte is the value mod 256). -/
def DataViewT.setUint8 (d : DataViewT) (idx : Nat) (value : Nat) : Except Err DataViewT :=
  if idx + 1 ≤ d.byteLength then
    .ok { d with buffer := d.buffer.set (d.byteOffset + idx) (value % 256) }
  else .error .range

/-- `DataView.prototype.setInt8`: the low 8 bits of the (possibly negative)
value are stored. -/
def DataViewT.setInt8 (d : DataViewT) (idx : Nat) (value : Int) : Except Err DataViewT :=
  if idx + 1 ≤ d.byteLength then
    .ok { d with buffer := d.buffer.set (d.byteOffset + idx) (value % 256).toNat }
  else .error .range

/-- `DataView.prototype.getUint16` with a little-endian flag. -/
def DataViewT.getUint16 (d : DataViewT) (idx : Nat) (littleEndian : Bool) : Except Err Nat :=
  if idx + 2 ≤ d.byteLength then
    let b0 := d.buffer.getD (d.byteOffset + idx) 0
    let b1 := d.buffer.getD (d.byteOffset + idx + 1) 0
    .ok (if littleEndian then b1 * 256 + b0 else b0 * 256 + b1)
  else .error .range

/-- `DataView.prototype.setUint16` with a little-endian flag. -/
def DataViewT.setUint16 (d : DataViewT) (idx : Nat) (value : Nat) (littleEndian : Bool) :
    Except Err DataViewT :=
  if idx + 2 ≤ d.byteLength then
    let v := value % 65536
    let lo := v % 256
    let hi := v / 256
    let b :=
      if littleEndian then
        (d.buffer.set (d.byteOffset + idx) lo).set (d.byteOffset + idx + 1) hi
      else
        (d.buffer.set (d.byteOffset + idx) hi).set (d.byteOffset + idx + 1) lo
    .ok { d with buffer := b }
  else .error .range

/-- `DataView.prototype.getInt32` with a little-endian flag. -/
def DataViewT.getInt32 (d : DataViewT) (idx : Nat) (littleEndian : Bool) : Except Err Int :=
  if idx + 4 ≤ d.byteLength then
    let b0 := d.buffer.getD (d.byteOffset + idx) 0
    let b1 := d.buffer.getD (d.byteOffset + idx + 1) 0
    let b2 := d.buffer.getD (d.byteOffset + idx + 2) 0
    let b3 := d.buffer.getD (d.byteOffset + idx + 3) 0
    let u := if littleEndian then ((b3 * 256 + b2) * 256 + b1) * 256 + b0
             else ((b0 * 256 + b1) * 256 + b2) * 256 + b3
    .ok (if u < 2 ^ 31 then (u : Int) else (u : Int) - 2 ^ 32)
  else .error .range

/-- The mutable instance state of the `ByteArray` class: its `DataView`
(`data`), the `write_position` high-water mark, the private `_position`
cursor and the `endian` flag. -/
structure ByteArray where
  data : DataViewT
  write_position : Nat
  _position : Nat
  endian : Endian
deriving DecidableEq, Repr

/-- `BUFFER_EXT_SIZE` ("Buffer expansion size"). -/
def BUFFER_EXT_SIZE : Nat := 1024

def SIZE_OF_INT8 : Nat := 1
def SIZE_OF_UINT8 : Nat := 1
def SIZE_OF_UINT16 : Nat := 2
def SIZE_OF_INT32 : Nat := 4
def SIZE_OF_UINT32 : Nat := 4

/-- `new ByteArray()`: a fresh `ArrayBuffer(BUFFER_EXT_SIZE)` of zero
bytes, `write_position = 0`, `_position = 0`, big-endian. -/
def newByteArray : ByteArray where
  data := ⟨List.replicate BUFFER_EXT_SIZE 0, 0, BUFFER_EXT_SIZE⟩
  write_position := 0
  _position := 0
  endian := .big

/-- `new ByteArray(buffer)` (offset 0, length 0): the `DataView` covers the
whole buffer and `write_position` is its byte length. -/
def fromBuffer (bytes : List Nat) : ByteArray :=
  let b := bytes.map (· % 256)
  { data := ⟨b, 0, b.length⟩
    write_position := b.length
    _position := 0
    endian := .big }

/-- A method body: it transforms the instance and either returns a value or
throws, keeping the mutations made before the throw. -/
def M (α : Type) : Type := ByteArray → Except Err α × ByteArray

instance : Monad M where
  pure a := fun s => (.ok a, s)
  bind x f := fun s =>
    match x s with
    | (.ok a, s1) => f a s1
    | (.error e, s1) => (.error e, s1)

def mget : M ByteArray := fun s => (.ok s, s)

def mset (s : ByteArray) : M Unit := fun _ => (.ok (), s)

def mthrow {α : Type} (e : Err) : M α := fun s => (.error e, s)

def liftE {α : Type} (x : Except Err α) : M α := fun s => (x, s)

theorem bind_apply {α β : Type} (x : M α) (f : α → M β) (s : ByteArray) :
    (x >>= f) s = match x s with
      | (.ok a, s1) => f a s1
      | (.error e, s1) => (.error e, s1) := rfl

theorem pure_apply {α : Type} (a : α) (s : ByteArray) :
    (pure a : M α) s = (.ok a, s) := rfl

/-- `validate(len)`: succeeds iff `data.byteLength > 0` and
`_position + len <= data.byteLength`, else throws `Error #2030`.
`len` can be negative at some call sites, hence `Int`. -/
def validate (len : Int) : M Bool := do
  let s ← mget
  if 0 < s.data.byteLength ∧ (s._position : Int) + len ≤ (s.data.byteLength : Int) then
    pure true
  else
    mthrow .eof

/-- The `position` setter: a forward move first runs
`validate(this._position - value)` (note the operand order in the source),
then `_position = value` and `write_position = max(value, write_position)`. -/
def setPosition (value : Nat) : M Unit := do
  let s ← mget
  if s._position < value then
    let _ ← validate ((s._position : Int) - (value : Int))
    pure ()
  mset { s with _position := value, write_position := max value s.write_position }

/-- The expression `this.position++`: the setter runs with `p + 1` and the
expression's value is the old `p`. -/
def positionPP : M Nat := do
  let s ← mget
  setPosition (s._position + 1)
  pure s._position

/-- `clear()`: resets `_position` only. -/
def clear : M Unit := do
  let s ← mget
  mset { s with _position := 0 }

/-- `validateBuffer(len)`: raises `write_position` to `len`, then if
`data.byteLength < len` allocates `len + BUFFER_EXT_SIZE` zero bytes,
copies the whole old backing buffer to offset 0 (`tmp.set(...)`, which
throws a `RangeError` if the source is longer than the target) and adopts
the new buffer through the `buffer` setter (full-view `DataView`). -/
def validateBuffer (len : Nat) : M Unit := do
  let s0 ← mget
  let s := { s0 with write_position := max len s0.write_position }
  mset s
  if s.data.byteLength < len then
    if s.data.buffer.length ≤ len + BUFFER_EXT_SIZE then
      mset { s with data := ⟨s.data.buffer ++
        List.replicate (len + BUFFER_EXT_SIZE - s.data.buffer.length) 0, 0,
        len + BUFFER_EXT_SIZE⟩ }
    else
      mthrow .range

def dvGetUint8 (idx : Nat) : M Nat := do
  let s ← mget
  liftE (s.data.getUint8 idx)

def dvSetUint8 (idx value : Nat) : M Unit := do
  let s ← mget
  let d ← liftE (s.data.setUint8 idx value)
  mset { s with data := d }

def dvSetInt8 (idx : Nat) (value : Int) : M Unit := do
  let s ← mget
  let d ← liftE (s.data.setInt8 idx value)
  mset { s with data := d }

/-- `readUnsignedByte()`: `validate(1)` then `getUint8(this.position++)`. -/
def readUnsignedByte : M Nat := do
  let _ ← validate (SIZE_OF_UINT8 : Int)
  let p ← positionPP
  dvGetUint8 p

/-- `writeByte(value)`: `validateBuffer(SIZE_OF_INT8)` then
`setInt8(this.position++, value)`.  Note the source passes the element
size, not `position + size`, to `validateBuffer`. -/
def writeByte (value : Int) : M Unit := do
  validateBuffer SIZE_OF_INT8
  let p ← positionPP
  dvSetInt8 p value

/-- Driver for the spec's "write N bytes one at a time" scenario: a
sequence of `writeByte` calls. -/
def writeByteList : List Int → M Unit
  | [] => pure ()
  | v :: rest => do
    writeByte v
    writeByteList rest

/-! ### UTF-8 decoder (`decodeUTF8`, lines 946-1033)

The source hardcodes `const fatal: boolean = false` inside the method; the
`fatal` parameter below models that internal flag.  A `Uint8Array` never
contains the sentinel `eof_byte = -1`, so that branch of the loop is
unreachable and is not part of the embedding. -/

/-- `decoderError(fatal, opt_code_point)` in non-fatal mode returns
`opt_code_point || 0xFFFD` (so a nonzero byte argument is returned as-is). -/
def decoderErrorCp (b : Nat) : Nat := if b = 0 then 0xFFFD else b

/-- The emit step at the bottom of the decode loop (lines 1022-1030): a
code point ≤ 0xFFFF is appended as a single UTF-16 unit, but only when it
is > 0; a code point > 0xFFFF is appended as a surrogate pair. -/
def emitUnits (codePoint : Nat) : List Nat :=
  if codePoint ≤ 0xFFFF then
    if codePoint > 0 then [codePoint] else []
  else
    let c := codePoint - 0x10000
    [0xD800 + (c >>> 10 &&& 0x3FF), 0xDC00 + (c &&& 0x3FF)]

/-- Decoder state: `utf8_bytes_needed`, `utf8_bytes_seen`,
`utf8_code_point`, `utf8_lower_boundary`. -/
structure DecSt where
  needed : Nat
  seen : Nat
  cp : Nat
  lower : Nat
deriving DecidableEq, Repr

/-- One loop iteration on a byte read while `utf8_bytes_needed === 0`
(lines 968-989 plus the emit step): ASCII emits directly; a valid lead
byte loads the state; any other byte calls `decoderError(fatal)` whose
return value is discarded (so in lenient mode nothing is emitted), then
`utf8_code_point` is multiplied by `64 ^ utf8_bytes_needed` (= 1 here). -/
def procLead (fatal : Bool) (st : DecSt) (b : Nat) : Except Err (List Nat × DecSt) :=
  if b ≤ 0x7F then
    .ok (emitUnits b, st)
  else if 0xC2 ≤ b ∧ b ≤ 0xDF then
    .ok ([], ⟨1, st.seen, (b - 0xC0) * 64 ^ 1, 0x80⟩)
  else if 0xE0 ≤ b ∧ b ≤ 0xEF then
    .ok ([], ⟨2, st.seen, (b - 0xE0) * 64 ^ 2, 0x800⟩)
  else if 0xF0 ≤ b ∧ b ≤ 0xF4 then
    .ok ([], ⟨3, st.seen, (b - 0xF0) * 64 ^ 3, 0x10000⟩)
  else if fatal then
    .error .decoding
  else
    .ok ([], { st with cp := st.cp * 64 ^ 0 })

/-- The decode loop.  A byte outside `0x80..0xBF` while a sequence is in
progress resets the state, emits `decoderError(fatal, byte)` and — because
of `pos--` — is then re-examined as a fresh lead byte, which the embedding
inlines via `procLead` on the reset state. -/
def decodeGo (fatal : Bool) : DecSt → List Nat → Except Err (List Nat)
  | _, [] => .ok []
  | st, b :: rest =>
    if st.needed = 0 then
      match procLead fatal st b with
      | .error e => .error e
      | .ok (us, st') =>
        match decodeGo fatal st' rest with
        | .error e => .error e
        | .ok tail => .ok (us ++ tail)
    else if 0x80 ≤ b ∧ b ≤ 0xBF then
      let seen := st.seen + 1
      let cp := st.cp + (b - 0x80) * 64 ^ (st.needed - seen)
      if seen ≠ st.needed then
        decodeGo fatal { st with seen := seen, cp := cp } rest
      else if st.lower ≤ cp ∧ cp ≤ 0x10FFFF ∧ ¬(0xD800 ≤ cp ∧ cp ≤ 0xDFFF) then
        match decodeGo fatal ⟨0, 0, 0, 0⟩ rest with
        | .error e => .error e
        | .ok tail => .ok (emitUnits cp ++ tail)
      else if fatal then
        .error .decoding
      else
        match decodeGo fatal ⟨0, 0, 0, 0⟩ rest with
        | .error e => .error e
        | .ok tail => .ok (emitUnits (decoderErrorCp b) ++ tail)
    else if fatal then
      .error .decoding
    else
      match procLead fatal ⟨0, 0, 0, 0⟩ b with
      | .error e => .error e
      | .ok (us, st') =>
        match decodeGo fatal st' rest with
        | .error e => .error e
        | .ok tail => .ok (emitUnits (decoderErrorCp b) ++ us ++ tail)

/-- `decodeUTF8(data)`; `fatal` is the internal flag (`false` in the
source). The output string is its list of UTF-16 code units. -/
def decodeUTF8 (fatal : Bool) (data : List Nat) : Except Err (List Nat) :=
  decodeGo fatal ⟨0, 0, 0, 0⟩ data

/-! ### UTF-8 encoder (`encodeUTF8` / `stringToCodePoints`, lines 908-944
and 1054-1084).  A string is its list of UTF-16 code units. -/

/-- `stringToCodePoints`: WebIDL DOMString → code point conversion.  A
high surrogate followed by a low surrogate pairs up; any unpaired
surrogate becomes `0xFFFD`. -/
def stringToCodePoints : List Nat → List Nat
  | [] => []
  | [c] =>
    -- the last unit: a non-surrogate passes through, an unpaired
    -- surrogate (low, or high with `i === n - 1`) becomes 0xFFFD
    if ¬(0xD800 ≤ c ∧ c ≤ 0xDFFF) then [c] else [0xFFFD]
  | c :: d :: rest2 =>
    if ¬(0xD800 ≤ c ∧ c ≤ 0xDFFF) then
      c :: stringToCodePoints (d :: rest2)
    else if 0xDC00 ≤ c ∧ c ≤ 0xDFFF then
      0xFFFD :: stringToCodePoints (d :: rest2)
    else if 0xDC00 ≤ d ∧ d ≤ 0xDFFF then
      (0x10000 + ((c &&& 0x3FF) <<< 10) + (d &&& 0x3FF)) :: stringToCodePoints rest2
    else
      0xFFFD :: stringToCodePoints (d :: rest2)

/-- The continuation bytes pushed by the `while (count > 0)` loop:
`0x80 + div(code_point, 64^(count-1)) % 64`, most significant first. -/
def contBytes (codePoint : Nat) : Nat → List Nat
  | 0 => []
  | count + 1 => (0x80 + codePoint / 64 ^ count % 64) :: contBytes codePoint count

/-- The per-code-point body of `encodeUTF8`: a surrogate calls
`encoderError` (always throws); ASCII is emitted unchanged; otherwise a
lead byte `div(code_point, 64^count) + offset` and `count` continuation
bytes.  A code point above 0x10FFFF cannot be produced from UTF-16 input;
there the JS arithmetic degenerates to `NaN`, which `new Uint8Array`
coerces to a single 0 byte. -/
def encodeCodePoint (codePoint : Nat) : Except Err (List Nat) :=
  if 0xD800 ≤ codePoint ∧ codePoint ≤ 0xDFFF then
    .error (.encoding codePoint)
  else if codePoint ≤ 0x7F then
    .ok [codePoint]
  else if 0x80 ≤ codePoint ∧ codePoint ≤ 0x7FF then
    .ok ((codePoint / 64 ^ 1 + 0xC0) :: contBytes codePoint 1)
  else if 0x800 ≤ codePoint ∧ codePoint ≤ 0xFFFF then
    .ok ((codePoint / 64 ^ 2 + 0xE0) :: contBytes codePoint 2)
  else if 0x10000 ≤ codePoint ∧ codePoint ≤ 0x10FFFF then
    .ok ((codePoint / 64 ^ 3 + 0xF0) :: contBytes codePoint 3)
  else
    .ok [0]

def encodeCodePoints : List Nat → Except Err (List Nat)
  | [] => .ok []
  | cp :: rest =>
    match encodeCodePoint cp with
    | .error e => .error e
    | .ok bs =>
      match encodeCodePoints rest with
      | .error e => .error e
      | .ok tail => .ok (bs ++ tail)

/-- `encodeUTF8(str)`: code-point conversion followed by byte emission.
An error throws out of the whole call, so no bytes are produced. -/
def encodeUTF8 (units : List Nat) : Except Err (List Nat) :=
  encodeCodePoints (stringToCodePoints units)

/-! ### Remaining cursor operations used by the claims -/

/-- The 64-bit signed pair value type (`Int64(low, high)`). -/
structure Int64T where
  low : Int
  high : Int
deriving DecidableEq, Repr

/-- `readInt64()`: note the source validates only `SIZE_OF_UINT32` (4)
bytes, then performs two 32-bit reads, each advancing `position` by 4. -/
def readInt64 : M Int64T := do
  let _ ← validate (SIZE_OF_UINT32 : Int)
  let s ← mget
  let low ← liftE (s.data.getInt32 s._position (s.endian == .little))
  setPosition (s._position + SIZE_OF_INT32)
  let s2 ← mget
  let high ← liftE (s2.data.getInt32 s2._position (s2.endian == .little))
  setPosition (s2._position + SIZE_OF_INT32)
  pure ⟨low, high⟩

/-- `readUTFBytes(length)`: `validate(length)`, wrap the next `length`
bytes (`new Uint8Array(buffer, bufferOffset + position, length)`, which
throws a `RangeError` when the window exceeds the backing buffer), advance
the position, decode. -/
def readUTFBytes (length : Nat) : M (List Nat) := do
  let _ ← validate (length : Int)
  let s ← mget
  if s.data.byteOffset + s._position + length ≤ s.data.buffer.length then
    let bytes := (s.data.buffer.drop (s.data.byteOffset + s._position)).take length
    setPosition (s._position + length)
    liftE (decodeUTF8 false bytes)
  else
    mthrow .range

/-- `readUTF()`: an unsigned-short length prefix in the current
endianness, then that many UTF-8 bytes. -/
def readUTF : M (List Nat) := do
  let _ ← validate (SIZE_OF_UINT16 : Int)
  let s ← mget
  let length ← liftE (s.data.getUint16 s._position (s.endian == .little))
  setPosition (s._position + SIZE_OF_UINT16)
  if length > 0 then
    readUTFBytes length
  else
    pure []

def writeUint8ArrayLoop : List Nat → M Unit
  | [] => pure ()
  | b :: rest => do
    let p ← positionPP
    dvSetUint8 p b
    writeUint8ArrayLoop rest

/-- `writeUint8Array(bytes)`: `validateBuffer(position + length)` then a
`setUint8(this.position++, …)` loop. -/
def writeUint8Array (bytes : List Nat) : M Unit := do
  let s ← mget
  validateBuffer (s._position + bytes.length)
  writeUint8ArrayLoop bytes

/-- `writeUTF(value)`: encode, `validateBuffer(2 + byteLength)`, write the
16-bit length prefix in the current endianness, then the bytes. -/
def writeUTF (units : List Nat) : M Unit := do
  let utf8bytes ← liftE (encodeUTF8 units)
  let length := utf8bytes.length
  validateBuffer (SIZE_OF_UINT16 + length)
  let s ← mget
  let d ← liftE (s.data.setUint16 s._position length (s.endian == .little))
  mset { s with data := d }
  setPosition (s._position + SIZE_OF_UINT16)
  writeUint8Array utf8bytes

/-- The copy loop of `writeBytes`: `count` iterations of
`this.data.setUint8(this.position++, tmp_data.getUint8(i))`. -/
def writeBytesLoop (tmp : DataViewT) : Nat → Nat → M Unit
  | _, 0 => pure ()
  | i, count + 1 => do
    let p ← positionPP
    let v ← liftE (tmp.getUint8 i)
    dvSetUint8 p v
    writeBytesLoop tmp (i + 1) count

/-- `writeBytes(_bytes, offset, length)`: `validateBuffer(length)`, then a
`DataView` over the source's whole backing buffer (`new
DataView(_bytes.buffer)`, offset and window of the source ignored) is
copied for `_bytes.length` (= `write_position`) bytes; the `offset`
argument is never used. -/
def writeBytes (bytes : ByteArray) (offset : Nat) (length : Nat) : M Unit := do
  validateBuffer length
  let tmp : DataViewT := ⟨bytes.data.buffer, 0, bytes.data.buffer.length⟩
  writeBytesLoop tmp 0 bytes.write_position

/-- `readVariableSizedUnsignedInt()` (VX): a first unsigned byte ≠ 0xFF is
the high byte of a 16-bit value; 0xFF announces a three-byte 24-bit value. -/
def readVariableSizedUnsignedInt : M Nat := do
  let c ← readUnsignedByte
  if c ≠ 0xFF then
    let c2 ← readUnsignedByte
    pure (c <<< 8 ||| c2)
  else
    let c0 ← readUnsignedByte
    let c1 ← readUnsignedByte
    let c2 ← readUnsignedByte
    pure (c0 <<< 16 ||| c1 <<< 8 ||| c2)

/-! ### Step lemmas: how each primitive evaluates on a symbolic state -/

theorem mget_apply (s : ByteArray) : mget s = (.ok s, s) := rfl

theorem mset_apply (s' s : ByteArray) : mset s' s = (.ok (), s') := rfl

theorem mthrow_apply {α : Type} (e : Err) (s : ByteArray) :
    (mthrow e : M α) s = (.error e, s) := rfl

theorem liftE_apply {α : Type} (x : Except Err α) (s : ByteArray) : liftE x s = (x, s) := rfl

theorem validate_ok (len : Int) (s : ByteArray)
    (h1 : 0 < s.data.byteLength)
    (h2 : (s._position : Int) + len ≤ (s.data.byteLength : Int)) :
    validate len s = (.ok true, s) := by
  simp only [validate, bind_apply, mget_apply, pure_apply]
  rw [if_pos ⟨h1, h2⟩]
  rfl

theorem validate_fail (len : Int) (s : ByteArray)
    (h : ¬(0 < s.data.byteLength ∧ (s._position : Int) + len ≤ (s.data.byteLength : Int))) :
    validate len s = (.error .eof, s) := by
  simp only [validate, bind_apply, mget_apply, pure_apply]
  rw [if_neg h]
  rfl

/-- The state after the `position` setter succeeds with value `v`:
`_position = v` and `write_position` raised to `v`. -/
def withPos (s : ByteArray) (v : Nat) : ByteArray :=
  { s with _position := v, write_position := max v s.write_position }

theorem withPos_def (s : ByteArray) (v : Nat) :
    withPos s v = { s with _position := v, write_position := max v s.write_position } := rfl

theorem setPosition_ok (v : Nat) (s : ByteArray)
    (h : s._position < v →
      0 < s.data.byteLength ∧ (s._position : Int) + ((s._position : Int) - (v : Int)) ≤
        (s.data.byteLength : Int)) :
    setPosition v s = (.ok (), withPos s v) := by
  simp only [setPosition, bind_apply, mget_apply, withPos]
  by_cases hc : s._position < v
  · rw [if_pos hc]
    simp only [bind_apply, validate_ok _ s (h hc).1 (h hc).2, pure_apply, mset_apply]
  · rw [if_neg hc]
    simp only [bind_apply, pure_apply, mset_apply]

theorem setPosition_fail (v : Nat) (s : ByteArray)
    (hc : s._position < v)
    (h : ¬(0 < s.data.byteLength ∧ (s._position : Int) + ((s._position : Int) - (v : Int)) ≤
        (s.data.byteLength : Int))) :
    setPosition v s = (.error .eof, s) := by
  simp only [setPosition, bind_apply, mget_apply]
  rw [if_pos hc]
  simp only [bind_apply, validate_fail _ s h]

theorem positionPP_ok (s : ByteArray) (h : 0 < s.data.byteLength)
    (h2 : s._position ≤ s.data.byteLength + 1) :
    positionPP s = (.ok s._position, withPos s (s._position + 1)) := by
  have hs : setPosition (s._position + 1) s = (.ok (), withPos s (s._position + 1)) := by
    refine setPosition_ok _ s fun _ => ⟨h, ?_⟩
    push_cast
    omega
  simp only [positionPP, bind_apply, mget_apply, hs, pure_apply]

theorem clear_apply (s : ByteArray) : clear s = (.ok (), { s with _position := 0 }) := by
  simp only [clear, bind_apply, mget_apply, mset_apply]

theorem validateBuffer_noGrow (len : Nat) (s : ByteArray)
    (h : ¬ s.data.byteLength < len) :
    validateBuffer len s =
      (.ok (), { s with write_position := max len s.write_position }) := by
  simp only [validateBuffer, bind_apply, mget_apply, mset_apply]
  rw [if_neg h]
  rfl

/-- The state after a store into the backing buffer. -/
def withBuf (s : ByteArray) (b : List Nat) : ByteArray :=
  { s with data := { s.data with buffer := b } }

theorem withBuf_def (s : ByteArray) (b : List Nat) :
    withBuf s b = { s with data := { s.data with buffer := b } } := rfl

theorem dvGetUint8_ok (idx : Nat) (s : ByteArray) (h : idx + 1 ≤ s.data.byteLength) :
    dvGetUint8 idx s = (.ok (s.data.buffer.getD (s.data.byteOffset + idx) 0), s) := by
  simp only [dvGetUint8, bind_apply, mget_apply, liftE_apply, DataViewT.getUint8]
  rw [if_pos h]

theorem dvSetUint8_ok (idx value : Nat) (s : ByteArray) (h : idx + 1 ≤ s.data.byteLength) :
    dvSetUint8 idx value s =
      (.ok (), withBuf s (s.data.buffer.set (s.data.byteOffset + idx) (value % 256))) := by
  simp only [dvSetUint8, bind_apply, mget_apply, liftE_apply, DataViewT.setUint8, withBuf]
  rw [if_pos h]
  rfl

theorem dvSetInt8_ok (idx : Nat) (value : Int) (s : ByteArray)
    (h : idx + 1 ≤ s.data.byteLength) :
    dvSetInt8 idx value s =
      (.ok (), withBuf s (s.data.buffer.set (s.data.byteOffset + idx) (value % 256).toNat)) := by
  simp only [dvSetInt8, bind_apply, mget_apply, liftE_apply, DataViewT.setInt8, withBuf]
  rw [if_pos h]
  rfl

theorem dvSetInt8_fail (idx : Nat) (value : Int) (s : ByteArray)
    (h : ¬ idx + 1 ≤ s.data.byteLength) :
    dvSetInt8 idx value s = (.error .range, s) := by
  simp only [dvSetInt8, bind_apply, mget_apply, liftE_apply, DataViewT.setInt8, if_neg h]

theorem readUnsignedByte_ok (s : ByteArray) (h : s._position + 1 ≤ s.data.byteLength) :
    readUnsignedByte s = (.ok (s.data.buffer.getD (s.data.byteOffset + s._position) 0),
      withPos s (s._position + 1)) := by
  have hv : validate (SIZE_OF_UINT8 : Int) s = (.ok true, s) := by
    refine validate_ok _ s (by omega) ?_
    simp only [SIZE_OF_UINT8]
    push_cast
    omega
  simp only [readUnsignedByte, bind_apply, hv, positionPP_ok s (by omega) (by omega)]
  rw [dvGetUint8_ok _ _ (by simp only [withPos]; omega)]
  simp [withPos]

theorem writeByte_ok (v : Int) (s : ByteArray) (h : s._position + 1 ≤ s.data.byteLength) :
    ∃ s', writeByte v s = (.ok (), s') ∧
      s'._position = s._position + 1 ∧
      s'.data.byteLength = s.data.byteLength ∧
      s'.data.byteOffset = s.data.byteOffset ∧
      s'.data.buffer.length = s.data.buffer.length := by
  have hnb : validateBuffer SIZE_OF_INT8 s =
      (.ok (), { s with write_position := max SIZE_OF_INT8 s.write_position }) :=
    validateBuffer_noGrow _ s (by simp only [SIZE_OF_INT8]; omega)
  refine ⟨withBuf (withPos { s with write_position := max SIZE_OF_INT8 s.write_position }
      (s._position + 1)) (s.data.buffer.set (s.data.byteOffset + s._position) ((v % 256).toNat)),
    ?_, ?_, ?_, ?_, ?_⟩
  · simp only [writeByte, bind_apply, hnb]
    have hpp := positionPP_ok { s with write_position := max SIZE_OF_INT8 s.write_position }
      (by simp only []; omega) (by simp only []; omega)
    simp only [hpp, bind_apply]
    rw [dvSetInt8_ok _ _ _ (by simp only [withPos]; omega)]
    simp [withBuf, withPos]
  · simp [withBuf, withPos]
  · simp [withBuf, withPos]
  · simp [withBuf, withPos]
  · simp [withBuf, withPos]

theorem writeByte_atEnd (v : Int) (s : ByteArray)
    (h1 : s._position = s.data.byteLength) (h2 : 0 < s.data.byteLength) :
    (writeByte v s).1 = .error .range ∧
    (writeByte v s).2.data.byteLength = s.data.byteLength := by
  have hnb : validateBuffer SIZE_OF_INT8 s =
      (.ok (), { s with write_position := max SIZE_OF_INT8 s.write_position }) :=
    validateBuffer_noGrow _ s (by simp only [SIZE_OF_INT8]; omega)
  have hpp := positionPP_ok { s with write_position := max SIZE_OF_INT8 s.write_position }
    (by simp only []; omega) (by simp only []; omega)
  simp only [writeByte, bind_apply, hnb, hpp]
  rw [dvSetInt8_fail _ _ _ (by simp only [withPos]; omega)]
  simp [withPos]

theorem writeByteList_ok (vals : List Int) :
    ∀ s : ByteArray,
    s._position + vals.length ≤ s.data.byteLength →
    0 < s.data.byteLength →
    ∃ s', writeByteList vals s = (.ok (), s') ∧
      s'._position = s._position + vals.length ∧
      s'.data.byteLength = s.data.byteLength := by
  induction vals with
  | nil =>
    intro s h1 _
    exact ⟨s, rfl, by simp, rfl⟩
  | cons v rest ih =>
    intro s h1 h2
    obtain ⟨s1, hw, hp1, hl1, _, _⟩ := writeByte_ok v s (by simp at h1; omega)
    obtain ⟨s2, hrest, hp2, hl2⟩ := ih s1 (by simp at h1 ⊢; omega) (by omega)
    refine ⟨s2, ?_, ?_, ?_⟩
    · simp only [writeByteList, bind_apply, hw, hrest]
    · simp only [hp2, hp1, List.length_cons]
      omega
    · omega

theorem writeByteList_append (xs ys : List Int) :
    ∀ s : ByteArray,
    writeByteList (xs ++ ys) s =
      match writeByteList xs s with
      | (.ok _, s1) => writeByteList ys s1
      | (.error e, s1) => (.error e, s1) := by
  induction xs with
  | nil =>
    intro s
    simp only [List.nil_append, writeByteList, pure_apply]
  | cons v rest ih =>
    intro s
    simp only [List.cons_append, writeByteList, bind_apply]
    rcases writeByte v s with ⟨r, s1⟩
    cases r with
    | ok a => exact ih s1
    | error e => rfl

/-- C1: the claim that writing N bytes one at a time via `writeByte` grows
the buffer and preserves the data fails on the code: `writeByte` passes
only the element size (1) to `validateBuffer`, so the buffer never grows,
and on a fresh cursor the 1025th `writeByte` throws a `RangeError` from
the out-of-bounds `setInt8` store (the capacity is still
`BUFFER_EXT_SIZE = 1024` afterwards), instead of reaching a state from
which the N bytes could be read back. -/
theorem C1_writeByte_growth_fails :
    (writeByteList (List.replicate 1025 1) newByteArray).1 = .error .range ∧
    (writeByteList (List.replicate 1025 1) newByteArray).2.data.byteLength = BUFFER_EXT_SIZE := by
  have hsplit : List.replicate 1025 (1 : Int) = List.replicate 1024 1 ++ [1] := by
    have : (1025 : Nat) = 1024 + 1 := by norm_num
    rw [this, List.replicate_succ']
  obtain ⟨s', hrun, hpos, hlen⟩ := writeByteList_ok (List.replicate 1024 1) newByteArray
    (by simp [newByteArray, BUFFER_EXT_SIZE]) (by simp [newByteArray, BUFFER_EXT_SIZE])
  have hlen' : s'.data.byteLength = 1024 := by
    rw [hlen]; rfl
  have hpos' : s'._position = 1024 := by
    rw [hpos]; simp [newByteArray]
  have hend := writeByte_atEnd 1 s' (by omega) (by omega)
  rw [hsplit, writeByteList_append, hrun]
  rcases hw : writeByte 1 s' with ⟨r, s''⟩
  rw [hw] at hend
  simp only [writeByteList, bind_apply, hw]
  rcases r with e | u
  · have he : e = Err.range := by simpa using hend.1
    subst he
    constructor
    · rfl
    · show s''.data.byteLength = BUFFER_EXT_SIZE
      rw [hend.2, hlen]
      rfl
  · exact absurd hend.1 (by simp)

/-- C2: evidence against end-of-stream atomicity: on a cursor over a
5-byte buffer, `readInt64` (which needs 8 bytes but validates only
`SIZE_OF_UINT32 = 4`) does not throw end-of-stream: it reads the low
word, advances `position` to 4, and then the high-word `getInt32` throws
a `RangeError`, leaving the position changed. -/
theorem C2_readInt64_shortBuffer :
    (readInt64 (fromBuffer [1, 2, 3, 4, 5])).1 = .error .range ∧
    (readInt64 (fromBuffer [1, 2, 3, 4, 5])).1 ≠ .error .eof ∧
    (readInt64 (fromBuffer [1, 2, 3, 4, 5])).2._position = 4 := by
  refine ⟨by decide, by decide, by decide⟩

/-- C3: evidence against the claimed lenient decode of `[0xC0, 0x41]`: the
invalid lead byte contributes nothing (the replacement code point returned
by `decoderError` is discarded), so the lenient result is just `"A"`,
without U+FFFD; with the internal fatal flag set the same input does raise
a decode error. -/
theorem C3_decode_invalid_lead :
    decodeUTF8 false [0xC0, 0x41] = .ok [0x41] ∧
    decodeUTF8 false [0xC0, 0x41] ≠ .ok [0xFFFD, 0x41] ∧
    decodeUTF8 true [0xC0, 0x41] = .error .decoding := by
  refine ⟨by decide, by decide, by decide⟩

/-- C9: a `ByteArray` constructed with no arguments starts big-endian,
with `position = 0`, logical length (`write_position`) 0, and capacity
equal to the growth increment `BUFFER_EXT_SIZE = 1024`. -/
theorem C9_constructor_defaults :
    newByteArray.endian = .big ∧ newByteArray._position = 0 ∧
    newByteArray.write_position = 0 ∧
    newByteArray.data.byteLength = BUFFER_EXT_SIZE ∧ BUFFER_EXT_SIZE = 1024 := by
  exact ⟨rfl, rfl, rfl, rfl, rfl⟩

/-- C7 counterexample: on a fresh cursor (capacity 1024) the assignment
`position = 2000` succeeds and sets the position to 2000, although the
byte at 2000 is not reachable under the read-validation rules — the claim
says such an assignment must fail with end-of-stream. -/
theorem C7_counterexample :
    (setPosition 2000 newByteArray).1 = .ok () ∧
    (setPosition 2000 newByteArray).2._position = 2000 ∧
    (setPosition 2000 newByteArray).2.write_position = 2000 ∧
    newByteArray.data.byteLength = 1024 := by
  refine ⟨by decide, by decide, by decide, rfl⟩

/-- C7 (amended): the `position` setter validates a forward move with
`validate(position - value)` — a nonpositive length — so the assignment
`position = v` with `v > position` throws end-of-stream (leaving the state
unchanged) exactly when the capacity is 0 or `capacity + v < 2*position`;
otherwise (including every `v ≤ position`, which is unvalidated) it sets
`_position = v` and raises `write_position` to `v` when `v` exceeds it,
even when `v` is beyond capacity. -/
theorem C7_position_setter_validation (s : ByteArray) (v : Nat) :
    setPosition v s =
      if s._position < v ∧ (s.data.byteLength = 0 ∨ s.data.byteLength + v < 2 * s._position)
      then (.error .eof, s)
      else (.ok (), withPos s v) := by
  by_cases hc : s._position < v ∧
      (s.data.byteLength = 0 ∨ s.data.byteLength + v < 2 * s._position)
  · rw [if_pos hc]
    refine setPosition_fail v s hc.1 fun hok => ?_
    rcases hc.2 with h0 | h2
    · omega
    · have := hok.2
      omega
  · rw [if_neg hc]
    refine setPosition_ok v s fun hlt => ?_
    constructor
    · by_contra h0
      exact hc ⟨hlt, Or.inl (by omega)⟩
    · by_contra h2
      push_neg at h2
      exact hc ⟨hlt, Or.inr (by omega)⟩

/-- C8 counterexample: a successfully decoded code point 0 (the single
byte 0x00) is dropped by the `code_point > 0` guard: the output is empty,
not the one-unit NUL string the claim requires. -/
theorem C8_counterexample : decodeUTF8 false [0x00] = .ok [] := by decide

theorem emitUnits_pos (cp : Nat) (h : 0 < cp) :
    emitUnits cp = if cp ≤ 0xFFFF then [cp]
      else [0xD800 + ((cp - 0x10000) >>> 10 &&& 0x3FF),
            0xDC00 + ((cp - 0x10000) &&& 0x3FF)] := by
  rw [emitUnits]
  split_ifs with h1 h2 <;> first | rfl | omega

theorem emitUnits_no_zero (cp : Nat) : (0 : Nat) ∉ emitUnits cp := by
  intro hm
  rw [emitUnits] at hm
  split_ifs at hm <;> simp at hm <;> omega

theorem procLead_no_zero (fatal : Bool) (st : DecSt) (b : Nat) (us : List Nat) (st' : DecSt)
    (h : procLead fatal st b = .ok (us, st')) : (0 : Nat) ∉ us := by
  rw [procLead] at h
  split_ifs at h
  all_goals
    first
    | exact Except.noConfusion h
    | (injection h with h'
       injection h' with hu hs
       subst hu
       first
       | exact emitUnits_no_zero b
       | simp)

theorem decodeGo_no_NUL (data : List Nat) : ∀ (fatal : Bool) (st : DecSt) (out : List Nat),
    decodeGo fatal st data = .ok out → (0 : Nat) ∉ out := by
  induction data with
  | nil =>
    intro fatal st out h
    rw [decodeGo] at h
    injection h with h
    subst h
    simp
  | cons b rest ih =>
    intro fatal st out h
    rw [decodeGo] at h
    by_cases h0 : st.needed = 0
    · simp only [if_pos h0] at h
      rcases hpl : procLead fatal st b with e | ⟨us, st'⟩ <;> simp only [hpl] at h
      · exact absurd h (by simp)
      · rcases hd : decodeGo fatal st' rest with e | tail <;> simp only [hd] at h
        · exact absurd h (by simp)
        · injection h with h
          subst h
          intro hm
          rcases List.mem_append.1 hm with h1 | h2
          · exact procLead_no_zero fatal st b us st' hpl h1
          · exact ih fatal st' tail hd h2
    · simp only [if_neg h0] at h
      by_cases hbc : 0x80 ≤ b ∧ b ≤ 0xBF
      · simp only [if_pos hbc] at h
        by_cases hsn : st.seen + 1 ≠ st.needed
        · simp only [if_pos hsn] at h
          exact ih fatal _ out h
        · simp only [if_neg hsn] at h
          by_cases hv : st.lower ≤ st.cp + (b - 0x80) * 64 ^ (st.needed - (st.seen + 1)) ∧
              st.cp + (b - 0x80) * 64 ^ (st.needed - (st.seen + 1)) ≤ 0x10FFFF ∧
              ¬(0xD800 ≤ st.cp + (b - 0x80) * 64 ^ (st.needed - (st.seen + 1)) ∧
                st.cp + (b - 0x80) * 64 ^ (st.needed - (st.seen + 1)) ≤ 0xDFFF)
          · simp only [if_pos hv] at h
            rcases hd : decodeGo fatal ⟨0, 0, 0, 0⟩ rest with e | tail <;> simp only [hd] at h
            · exact absurd h (by simp)
            · injection h with h
              subst h
              intro hm
              rcases List.mem_append.1 hm with h1 | h2
              · exact emitUnits_no_zero _ h1
              · exact ih fatal _ tail hd h2
          · simp only [if_neg hv] at h
            by_cases hf : fatal
            · simp only [if_pos hf] at h
              exact absurd h (by simp)
            · simp only [if_neg hf] at h
              rcases hd : decodeGo fatal ⟨0, 0, 0, 0⟩ rest with e | tail <;> simp only [hd] at h
              · exact absurd h (by simp)
              · injection h with h
                subst h
                intro hm
                rcases List.mem_append.1 hm with h1 | h2
                · exact emitUnits_no_zero _ h1
                · exact ih fatal _ tail hd h2
      · simp only [if_neg hbc] at h
        by_cases hf : fatal
        · simp only [if_pos hf] at h
          exact absurd h (by simp)
        · simp only [if_neg hf] at h
          rcases hpl : procLead fatal ⟨0, 0, 0, 0⟩ b with e | ⟨us, st'⟩ <;> simp only [hpl] at h
          · exact absurd h (by simp)
          · rcases hd : decodeGo fatal st' rest with e | tail <;> simp only [hd] at h
            · exact absurd h (by simp)
            · injection h with h
              subst h
              intro hm
              rcases List.mem_append.1 hm with hm1 | h3
              · rcases List.mem_append.1 hm1 with h1 | h2
                · exact emitUnits_no_zero _ h1
                · exact procLead_no_zero fatal _ b us st' hpl h2
              · exact ih fatal st' tail hd h3

/-- C8 (amended): for every decoder state and every byte stream, whenever
the decoder successfully decodes a code point it appends exactly: nothing
when the code point is 0 (a 0x00 byte read with no sequence in progress
contributes nothing, at any place of any stream — first conjunct); one
code unit when the code point is in 1..0xFFFF, whether it comes from an
ASCII byte (second conjunct) or from a completed multi-byte sequence
(third conjunct); and the UTF-16 surrogate pair
`[0xD800 + ((cp-0x10000) >>> 10 &&& 0x3FF), 0xDC00 + ((cp-0x10000) &&& 0x3FF)]`
when the code point exceeds 0xFFFF (third conjunct).  Consequently a NUL
unit never occurs in the output of any successful decode (fourth
conjunct). -/
theorem C8_NUL_dropped_surrogate_pairs :
    (∀ (fatal : Bool) (st : DecSt) (rest : List Nat), st.needed = 0 →
      decodeGo fatal st (0 :: rest) = decodeGo fatal st rest) ∧
    (∀ (fatal : Bool) (st : DecSt) (b : Nat) (rest : List Nat), st.needed = 0 →
      0 < b → b ≤ 0x7F →
      decodeGo fatal st (b :: rest) =
        (decodeGo fatal st rest).map (fun tail => b :: tail)) ∧
    (∀ (fatal : Bool) (st : DecSt) (b : Nat) (rest : List Nat) (cp : Nat),
      st.needed ≠ 0 → 0x80 ≤ b → b ≤ 0xBF → st.seen + 1 = st.needed →
      cp = st.cp + (b - 0x80) * 64 ^ (st.needed - (st.seen + 1)) →
      st.lower ≤ cp → cp ≤ 0x10FFFF → ¬(0xD800 ≤ cp ∧ cp ≤ 0xDFFF) → 0 < cp →
      decodeGo fatal st (b :: rest) =
        (decodeGo fatal ⟨0, 0, 0, 0⟩ rest).map
          (fun tail => (if cp ≤ 0xFFFF then [cp]
            else [0xD800 + ((cp - 0x10000) >>> 10 &&& 0x3FF),
                  0xDC00 + ((cp - 0x10000) &&& 0x3FF)]) ++ tail)) ∧
    (∀ (fatal : Bool) (st : DecSt) (data out : List Nat),
      decodeGo fatal st data = .ok out → (0 : Nat) ∉ out) := by
  refine ⟨?_, ?_, ?_, ?_⟩
  · intro fatal st rest h0
    rw [decodeGo, if_pos h0]
    have hpl : procLead fatal st 0 = .ok ([], st) := by
      rw [procLead, if_pos (by norm_num)]
      rw [show emitUnits 0 = [] from rfl]
    simp only [hpl]
    rcases hd : decodeGo fatal st rest with e | tail <;> simp [hd]
  · intro fatal st b rest h0 hb0 hb7
    rw [decodeGo, if_pos h0]
    have hpl : procLead fatal st b = .ok ([b], st) := by
      rw [procLead, if_pos hb7]
      rw [emitUnits_pos b hb0, if_pos (by omega)]
    simp only [hpl]
    rcases hd : decodeGo fatal st rest with e | tail <;> simp [hd, Except.map]
  · intro fatal st b rest cp h0 hb1 hb2 hsn hcp hl hhi hsur hpos2
    subst hcp
    rw [decodeGo, if_neg h0, if_pos ⟨hb1, hb2⟩]
    simp only [if_neg (show ¬(st.seen + 1 ≠ st.needed) from by omega)]
    have hva := And.intro hl (And.intro hhi hsur)
    simp only [if_pos hva]
    rcases hd : decodeGo fatal ⟨0, 0, 0, 0⟩ rest with e | tail <;> simp only [hd]
    · simp [Except.map]
    · simp [Except.map, emitUnits_pos _ hpos2]
  · intro fatal st data out h
    exact decodeGo_no_NUL data fatal st out h

theorem C8_witness :
    decodeGo false ⟨0, 0, 0, 0⟩ [0, 65] = decodeGo false ⟨0, 0, 0, 0⟩ [65] ∧
    decodeGo false ⟨0, 0, 0, 0⟩ [65] = .ok [65] ∧
    decodeGo false ⟨3, 2, 128512, 0x10000⟩ [0x80] = .ok [0xD83D, 0xDE00] ∧
    (0 : Nat) ∉ ([65] : List Nat) := by
  refine ⟨?_, ?_, ?_, ?_⟩
  · exact C8_NUL_dropped_surrogate_pairs.1 false ⟨0, 0, 0, 0⟩ [65] rfl
  · have h := C8_NUL_dropped_surrogate_pairs.2.1 false ⟨0, 0, 0, 0⟩ 65 [] rfl
      (by decide) (by decide)
    rw [h]
    decide
  · have h := C8_NUL_dropped_surrogate_pairs.2.2.1 false ⟨3, 2, 128512, 0x10000⟩ 0x80 []
      128512 (by decide) (by decide) (by decide) (by decide) (by decide) (by decide)
      (by decide) (by decide) (by decide)
    rw [h]
    decide
  · exact C8_NUL_dropped_surrogate_pairs.2.2.2 false ⟨0, 0, 0, 0⟩ [65] [65] (by decide)

theorem stringToCodePoints_sound_aux :
    ∀ (n : Nat) (units : List Nat), units.length ≤ n →
    (∀ u ∈ units, u < 0x10000) →
    ∀ cp ∈ stringToCodePoints units, cp ≤ 0x10FFFF ∧ ¬(0xD800 ≤ cp ∧ cp ≤ 0xDFFF) := by
  intro n
  induction n with
  | zero =>
    intro units hlen _ cp hcp
    have hnil : units = [] := List.eq_nil_of_length_eq_zero (by omega)
    subst hnil
    simp [stringToCodePoints] at hcp
  | succ n ih =>
    intro units hlen h cp hcp
    match units with
    | [] => simp [stringToCodePoints] at hcp
    | [c] =>
      have hc := h c (by simp)
      rw [stringToCodePoints] at hcp
      split_ifs at hcp with h1
      · simp at hcp; omega
      · simp at hcp; omega
    | c :: d :: rest2 =>
      have hc := h c (by simp)
      have hd := h d (by simp)
      have hlen2 : (d :: rest2).length ≤ n := by simp at hlen ⊢; omega
      have hlen3 : rest2.length ≤ n := by simp at hlen ⊢; omega
      have h2 : ∀ u ∈ d :: rest2, u < 0x10000 := fun u hu => h u (by simp [hu])
      have h3 : ∀ u ∈ rest2, u < 0x10000 := fun u hu => h u (by simp; tauto)
      rw [stringToCodePoints] at hcp
      by_cases hA : 0xD800 ≤ c ∧ c ≤ 0xDFFF
      · rw [if_neg (not_not_intro hA)] at hcp
        by_cases hB : 0xDC00 ≤ c ∧ c ≤ 0xDFFF
        · rw [if_pos hB] at hcp
          rcases List.mem_cons.1 hcp with hh | ht
          · omega
          · exact ih (d :: rest2) hlen2 h2 cp ht
        · rw [if_neg hB] at hcp
          by_cases hD : 0xDC00 ≤ d ∧ d ≤ 0xDFFF
          · rw [if_pos hD] at hcp
            rcases List.mem_cons.1 hcp with hh | ht
            · have ha : c &&& 0x3FF ≤ 0x3FF := Nat.and_le_right
              have hbnd : d &&& 0x3FF ≤ 0x3FF := Nat.and_le_right
              rw [hh, Nat.shiftLeft_eq]
              constructor <;> omega
            · exact ih rest2 hlen3 h3 cp ht
          · rw [if_neg hD] at hcp
            rcases List.mem_cons.1 hcp with hh | ht
            · omega
            · exact ih (d :: rest2) hlen2 h2 cp ht
      · rw [if_pos hA] at hcp
        rcases List.mem_cons.1 hcp with hh | ht
        · omega
        · exact ih (d :: rest2) hlen2 h2 cp ht

theorem stringToCodePoints_sound (units : List Nat) (h : ∀ u ∈ units, u < 0x10000) :
    ∀ cp ∈ stringToCodePoints units, cp ≤ 0x10FFFF ∧ ¬(0xD800 ≤ cp ∧ cp ≤ 0xDFFF) :=
  stringToCodePoints_sound_aux units.length units le_rfl h

theorem encodeCodePoint_ok (cp : Nat) (h : ¬(0xD800 ≤ cp ∧ cp ≤ 0xDFFF)) :
    ∃ bs, encodeCodePoint cp = .ok bs := by
  unfold encodeCodePoint
  rw [if_neg h]
  split_ifs <;> exact ⟨_, rfl⟩

theorem encodeCodePoints_ok (cps : List Nat) (h : ∀ cp ∈ cps, ¬(0xD800 ≤ cp ∧ cp ≤ 0xDFFF)) :
    ∃ bs, encodeCodePoints cps = .ok bs := by
  induction cps with
  | nil => exact ⟨[], rfl⟩
  | cons cp rest ih =>
    obtain ⟨b1, hb1⟩ := encodeCodePoint_ok cp (h cp (by simp))
    obtain ⟨bs, hbs⟩ := ih fun c hc => h c (by simp [hc])
    exact ⟨b1 ++ bs, by simp [encodeCodePoints, hb1, hbs]⟩

/-- C4 counterexample: encoding the string consisting of one unpaired
high surrogate does not fail — it silently produces the UTF-8 encoding of
the replacement character U+FFFD (the surrogate is replaced during
`stringToCodePoints`, so `encoderError` is never reached). -/
theorem C4_counterexample : encodeUTF8 [0xD800] = .ok [0xEF, 0xBF, 0xBD] := by decide

/-- C4 (amended): on any UTF-16 input (code units < 0x10000) the encoder
never fails: `stringToCodePoints` replaces every unpaired surrogate with
U+FFFD before the encoder's surrogate check, so `writeUTF`/`writeUTFBytes`
commit the substituted bytes; e.g. a lone low surrogate followed by `'A'`
encodes as the three U+FFFD bytes then `0x41`. -/
theorem C4_encoder_never_fails (units : List Nat) (h : ∀ u ∈ units, u < 65536) :
    (∃ bs, encodeUTF8 units = .ok bs) ∧
    encodeUTF8 [0xDC00, 0x41] = .ok [0xEF, 0xBF, 0xBD, 0x41] := by
  refine ⟨?_, by decide⟩
  unfold encodeUTF8
  exact encodeCodePoints_ok _ fun cp hcp => ((stringToCodePoints_sound units h) cp hcp).2

theorem C4_witness : ∃ bs, encodeUTF8 [0xD800, 0x41] = .ok bs :=
  (C4_encoder_never_fails [0xD800, 0x41] (by decide)).1

theorem getD_lt_of_forall (l : List Nat) (i : Nat) (h : i < l.length)
    (hWF : ∀ b ∈ l, b < 256) : l.getD i 0 < 256 := by
  rw [List.getD_eq_getElem?_getD, List.getElem?_eq_getElem h]
  exact hWF _ (List.getElem_mem h)

theorem withPos_data (s : ByteArray) (v : Nat) : (withPos s v).data = s.data := rfl

theorem withPos_position (s : ByteArray) (v : Nat) : (withPos s v)._position = v := rfl

theorem withPos_endian (s : ByteArray) (v : Nat) : (withPos s v).endian = s.endian := rfl

theorem withPos_collapse (s : ByteArray) (a b : Nat) (h : a ≤ b) :
    withPos (withPos s a) b = withPos s b := by
  cases s with
  | mk d w p e =>
    simp [withPos]
    omega

theorem shiftLeft8_or_eq (a b : Nat) (hb : b < 256) : a <<< 8 ||| b = a * 256 + b := by
  have h1 : a <<< 8 = 2 ^ 8 * a := by
    rw [Nat.shiftLeft_eq, Nat.mul_comm]
  have h2 : b < 2 ^ 8 := by norm_num at hb ⊢; omega
  rw [h1, ← Nat.mul_add_lt_is_or h2 a]
  ring

/-- C5: the VX decode algorithm: with the needed bytes available,
`readVariableSizedUnsignedInt` reads one unsigned byte `b0`; when
`b0 ≠ 0xFF` it returns `(b0 <<< 8) ||| b1`, consumes exactly 2 bytes (the
final position is `position + 2`) and the value is in 0..65279; when
`b0 = 0xFF` it discards `b0` and returns
`(b1 <<< 16) ||| (b2 <<< 8) ||| b3` from the next three unsigned bytes,
consuming exactly 4 bytes. -/
theorem C5_readVX_spec (s : ByteArray)
    (hWF : ∀ b ∈ s.data.buffer, b < 256)
    (hDV : s.data.byteOffset + s.data.byteLength ≤ s.data.buffer.length) :
    (s.data.buffer.getD (s.data.byteOffset + s._position) 0 ≠ 0xFF →
      s._position + 2 ≤ s.data.byteLength →
      readVariableSizedUnsignedInt s =
        (.ok (s.data.buffer.getD (s.data.byteOffset + s._position) 0 <<< 8 |||
              s.data.buffer.getD (s.data.byteOffset + (s._position + 1)) 0),
         withPos s (s._position + 2)) ∧
      s.data.buffer.getD (s.data.byteOffset + s._position) 0 <<< 8 |||
        s.data.buffer.getD (s.data.byteOffset + (s._position + 1)) 0 ≤ 65279) ∧
    (s.data.buffer.getD (s.data.byteOffset + s._position) 0 = 0xFF →
      s._position + 4 ≤ s.data.byteLength →
      readVariableSizedUnsignedInt s =
        (.ok (s.data.buffer.getD (s.data.byteOffset + (s._position + 1)) 0 <<< 16 |||
              s.data.buffer.getD (s.data.byteOffset + (s._position + 2)) 0 <<< 8 |||
              s.data.buffer.getD (s.data.byteOffset + (s._position + 3)) 0),
         withPos s (s._position + 4))) := by
  constructor
  · intro hne hlen
    have h1 := readUnsignedByte_ok s (by omega)
    have h2 := readUnsignedByte_ok (withPos s (s._position + 1))
      (by simp only [withPos]; omega)
    simp only [withPos_data, withPos_position,
      show s._position + 1 + 1 = s._position + 2 from by omega,
      withPos_collapse s (s._position + 1) (s._position + 2) (by omega)] at h2
    constructor
    · simp only [readVariableSizedUnsignedInt, bind_apply, h1]
      rw [if_pos hne]
      simp only [bind_apply, h2, pure_apply]
    · have hb1 : s.data.buffer.getD (s.data.byteOffset + (s._position + 1)) 0 < 256 :=
        getD_lt_of_forall s.data.buffer (s.data.byteOffset + (s._position + 1))
          (by omega) hWF
      have hb0 : s.data.buffer.getD (s.data.byteOffset + s._position) 0 < 256 :=
        getD_lt_of_forall s.data.buffer (s.data.byteOffset + s._position) (by omega) hWF
      rw [shiftLeft8_or_eq _ _ hb1]
      omega
  · intro hff hlen
    have h1 := readUnsignedByte_ok s (by omega)
    have h2 := readUnsignedByte_ok (withPos s (s._position + 1))
      (by simp only [withPos]; omega)
    simp only [withPos_data, withPos_position,
      show s._position + 1 + 1 = s._position + 2 from by omega,
      withPos_collapse s (s._position + 1) (s._position + 2) (by omega)] at h2
    have h3 := readUnsignedByte_ok (withPos s (s._position + 2))
      (by simp only [withPos]; omega)
    simp only [withPos_data, withPos_position,
      show s._position + 2 + 1 = s._position + 3 from by omega,
      withPos_collapse s (s._position + 2) (s._position + 3) (by omega)] at h3
    have h4 := readUnsignedByte_ok (withPos s (s._position + 3))
      (by simp only [withPos]; omega)
    simp only [withPos_data, withPos_position,
      show s._position + 3 + 1 = s._position + 4 from by omega,
      withPos_collapse s (s._position + 3) (s._position + 4) (by omega)] at h4
    simp only [readVariableSizedUnsignedInt, bind_apply, h1]
    rw [if_neg (not_not_intro hff)]
    simp only [bind_apply, h2, h3, h4, pure_apply]

theorem C5_witness :
    (readVariableSizedUnsignedInt (fromBuffer [1, 2])).1 = .ok 258 ∧
    (readVariableSizedUnsignedInt (fromBuffer [1, 2])).2._position = 2 ∧
    (258 : Nat) ≤ 65279 := by
  obtain ⟨heq, hle⟩ := (C5_readVX_spec (fromBuffer [1, 2]) (by decide) (by decide)).1
    (by decide) (by decide)
  rw [heq]
  exact ⟨by decide, by decide, by decide⟩

/-! ### The effect of the byte-store loops on the backing buffer -/

/-- Iterated `setUint8`: store the bytes of `bs` (each mod 256) at
consecutive indices starting at `i`. -/
def setSeq : List Nat → Nat → List Nat → List Nat
  | l, _, [] => l
  | l, i, b :: bs => setSeq (l.set i (b % 256)) (i + 1) bs

theorem setSeq_length (bs : List Nat) : ∀ (l : List Nat) (i : Nat),
    (setSeq l i bs).length = l.length := by
  induction bs with
  | nil => intro l i; rfl
  | cons b bs ih =>
    intro l i
    rw [setSeq, ih]
    simp

theorem setSeq_getElem? (bs : List Nat) : ∀ (l : List Nat) (i k : Nat),
    (setSeq l i bs)[k]? =
      if i ≤ k ∧ k < i + bs.length ∧ k < l.length then some (bs.getD (k - i) 0 % 256)
      else l[k]? := by
  induction bs with
  | nil =>
    intro l i k
    rw [setSeq, if_neg]
    intro hcon
    simp only [List.length_nil] at hcon
    omega
  | cons b bs ih =>
    intro l i k
    rw [setSeq, ih]
    simp only [List.length_set, List.length_cons]
    by_cases hk : k = i
    · subst hk
      rw [if_neg (by omega)]
      rw [List.getElem?_set_self']
      by_cases hlt : k < l.length
      · rw [if_pos ⟨le_rfl, by omega, hlt⟩]
        rw [List.getElem?_eq_getElem hlt]
        simp
      · rw [if_neg (by omega)]
        rw [List.getElem?_eq_none (by omega)]
        rfl
    · rw [List.getElem?_set_ne fun h => hk h.symm]
      by_cases hc : i ≤ k ∧ k < i + (bs.length + 1) ∧ k < l.length
      · rw [if_pos (by omega), if_pos hc]
        have hki : k - i = (k - (i + 1)) + 1 := by omega
        rw [hki, List.getD_cons_succ]
      · rw [if_neg (by omega), if_neg hc]

theorem setSeq_extract (bs : List Nat) (l : List Nat) (i : Nat)
    (h : i + bs.length ≤ l.length) :
    ((setSeq l i bs).drop i).take bs.length = bs.map (· % 256) := by
  apply List.ext_getElem?
  intro n
  by_cases hn : n < bs.length
  · rw [List.getElem?_take_of_lt hn, List.getElem?_drop, setSeq_getElem?,
      if_pos ⟨by omega, by omega, by omega⟩, List.getElem?_map]
    have : i + n - i = n := by omega
    rw [this]
    rw [List.getD_eq_getElem?_getD, List.getElem?_eq_getElem (by omega : n < bs.length)]
    simp
  · rw [List.getElem?_eq_none, List.getElem?_eq_none]
    · simp
      omega
    · simp only [List.length_take, List.length_drop, setSeq_length]
      omega


theorem withBuf_data (s : ByteArray) (b : List Nat) :
    (withBuf s b).data = { s.data with buffer := b } := rfl

theorem writeUint8ArrayLoop_ok (bs : List Nat) : ∀ (s : ByteArray),
    s._position + bs.length ≤ s.data.byteLength →
    0 < s.data.byteLength →
    ∃ s', writeUint8ArrayLoop bs s = (.ok (), s') ∧
      s'._position = s._position + bs.length ∧
      s'.data = { s.data with
        buffer := setSeq s.data.buffer (s.data.byteOffset + s._position) bs } ∧
      s'.endian = s.endian := by
  induction bs with
  | nil =>
    intro s h1 h2
    exact ⟨s, rfl, by simp, by rw [setSeq], rfl⟩
  | cons b bs ih =>
    intro s h1 h2
    have hpp := positionPP_ok s h2 (by omega)
    have hset := dvSetUint8_ok s._position b (withPos s (s._position + 1))
      (by simp only [withPos]; simp at h1 ⊢; omega)
    obtain ⟨s', hrun, hp, hd, he⟩ :=
      ih (withBuf (withPos s (s._position + 1))
            (s.data.buffer.set (s.data.byteOffset + s._position) (b % 256)))
        (by simp only [withBuf, withPos]; simp at h1 ⊢; omega)
        (by simp only [withBuf, withPos]; omega)
    refine ⟨s', ?_, ?_, ?_, ?_⟩
    · simp only [writeUint8ArrayLoop, bind_apply, hpp, hset]
      simp only [withPos_data, withPos_position] at hrun ⊢
      exact hrun
    · simp only [withBuf, withPos] at hp
      simp only [hp, List.length_cons]
      omega
    · rw [hd]
      simp only [withBuf, withPos]
      rw [setSeq]
      have : s.data.byteOffset + (s._position + 1) = s.data.byteOffset + s._position + 1 := by
        omega
      rw [this]
    · rw [he]
      rfl

theorem writeUint8Array_ok (bs : List Nat) (s : ByteArray)
    (h1 : s._position + bs.length ≤ s.data.byteLength)
    (h2 : 0 < s.data.byteLength) :
    ∃ s', writeUint8Array bs s = (.ok (), s') ∧
      s'._position = s._position + bs.length ∧
      s'.data = { s.data with
        buffer := setSeq s.data.buffer (s.data.byteOffset + s._position) bs } ∧
      s'.endian = s.endian := by
  have hnb : validateBuffer (s._position + bs.length) s = (.ok (),
      { s with write_position := max (s._position + bs.length) s.write_position }) :=
    validateBuffer_noGrow _ s (by omega)
  obtain ⟨s', hrun, hp, hd, he⟩ := writeUint8ArrayLoop_ok bs
    { s with write_position := max (s._position + bs.length) s.write_position }
    (by simpa using h1) (by simpa using h2)
  exact ⟨s', by simp only [writeUint8Array, bind_apply, mget_apply, hnb, hrun], hp, hd, he⟩

/-- The UTF-16 code units of `"Hello!"`. -/
def helloUnits : List Nat := [72, 101, 108, 108, 111, 33]

/-- The UTF-8 bytes of `"Hello!"`. -/
def helloBytes : List Nat := [72, 101, 108, 108, 111, 33]

/-- The claim's scenario: `writeUTF("Hello!")`, rewind to 0 (`clear`),
then `readUTF()`. -/
def utfRoundTrip (s : ByteArray) : Except Err (List Nat) × ByteArray :=
  (do writeUTF helloUnits; clear; readUTF) s

theorem readUTF_hello (BF : List Nat) (w2 L : Nat) (e : Endian)
    (hL : L = BF.length) (hcap : 8 ≤ L)
    (hgu : DataViewT.getUint16 ⟨BF, 0, L⟩ 0 (e == Endian.little) = .ok 6)
    (hslice : (BF.drop 2).take 6 = helloBytes) :
    readUTF ⟨⟨BF, 0, L⟩, w2, 0, e⟩ =
      (.ok helloUnits, ⟨⟨BF, 0, L⟩, max 8 (max 2 w2), 8, e⟩) := by
  have hv2 : validate (SIZE_OF_UINT16 : Int) ⟨⟨BF, 0, L⟩, w2, 0, e⟩ =
      (.ok true, ⟨⟨BF, 0, L⟩, w2, 0, e⟩) := by
    refine validate_ok _ _ (by simp; omega) ?_
    simp [SIZE_OF_UINT16]
    omega
  have hsp2 : setPosition (0 + SIZE_OF_UINT16) ⟨⟨BF, 0, L⟩, w2, 0, e⟩ =
      (.ok (), ⟨⟨BF, 0, L⟩, max 2 w2, 2, e⟩) := by
    rw [setPosition_ok _ _ (fun _ => ⟨by simp; omega, by simp [SIZE_OF_UINT16]; omega⟩)]
    simp [withPos, SIZE_OF_UINT16]
  have hv6 : validate ((6 : Nat) : Int) ⟨⟨BF, 0, L⟩, max 2 w2, 2, e⟩ =
      (.ok true, ⟨⟨BF, 0, L⟩, max 2 w2, 2, e⟩) := by
    refine validate_ok _ _ (by simp; omega) (by simp; omega)
  have hsp8 : setPosition (2 + 6) ⟨⟨BF, 0, L⟩, max 2 w2, 2, e⟩ =
      (.ok (), ⟨⟨BF, 0, L⟩, max 8 (max 2 w2), 8, e⟩) := by
    rw [setPosition_ok _ _ (fun _ => ⟨by simp; omega, by simp; omega⟩)]
    simp [withPos]
  have hdec : decodeUTF8 false helloBytes = .ok helloUnits := by decide
  simp only [readUTF, bind_apply, hv2, mget_apply, liftE_apply, hgu, hsp2]
  rw [if_pos (by norm_num)]
  simp only [readUTFBytes, bind_apply, hv6, mget_apply]
  rw [if_pos (by simp; omega)]
  simp only [bind_apply, hsp8, Nat.zero_add, hslice, liftE_apply, hdec]

theorem writeUTF_hello (buf : List Nat) (wp L : Nat) (e : Endian)
    (hlen : L = buf.length) (hcap : 8 ≤ L) :
    ∃ w', writeUTF helloUnits ⟨⟨buf, 0, L⟩, wp, 0, e⟩ =
      (.ok (), ⟨⟨setSeq (if e == Endian.little then (buf.set 0 6).set 1 0
                         else (buf.set 0 0).set 1 6) 2 helloBytes, 0, L⟩, w', 8, e⟩) := by
  have henc : encodeUTF8 helloUnits = .ok helloBytes := by decide
  have hnb : validateBuffer (SIZE_OF_UINT16 + helloBytes.length) ⟨⟨buf, 0, L⟩, wp, 0, e⟩ =
      (.ok (), ⟨⟨buf, 0, L⟩, max 8 wp, 0, e⟩) := by
    rw [validateBuffer_noGrow _ _ (by simp [SIZE_OF_UINT16, helloBytes]; omega)]
    rfl
  have hsu : DataViewT.setUint16 ⟨buf, 0, L⟩ 0 helloBytes.length (e == Endian.little) =
      .ok ⟨(if e == Endian.little then (buf.set 0 6).set 1 0
            else (buf.set 0 0).set 1 6), 0, L⟩ := by
    rw [DataViewT.setUint16]
    rw [if_pos (by simp; omega)]
    cases e <;> simp [helloBytes]
  have hsp2 : setPosition (0 + SIZE_OF_UINT16)
      ⟨⟨(if e == Endian.little then (buf.set 0 6).set 1 0
         else (buf.set 0 0).set 1 6), 0, L⟩, max 8 wp, 0, e⟩ =
      (.ok (), ⟨⟨(if e == Endian.little then (buf.set 0 6).set 1 0
                  else (buf.set 0 0).set 1 6), 0, L⟩, max 2 (max 8 wp), 2, e⟩) := by
    rw [setPosition_ok _ _ (fun _ => ⟨by simp; omega, by simp [SIZE_OF_UINT16]; omega⟩)]
    simp [withPos, SIZE_OF_UINT16]
  obtain ⟨s', hrun, hp, hd, he⟩ := writeUint8Array_ok helloBytes
      ⟨⟨(if e == Endian.little then (buf.set 0 6).set 1 0
         else (buf.set 0 0).set 1 6), 0, L⟩, max 2 (max 8 wp), 2, e⟩
      (by simp [helloBytes]; omega) (by simp; omega)
  obtain ⟨d', w', p', e'⟩ := s'
  simp only at hp hd he
  subst hp he
  refine ⟨w', ?_⟩
  simp only [writeUTF, bind_apply, liftE_apply, henc, hnb, mget_apply, hsu, mset_apply, hsp2,
    hrun]
  simp only [hd]
  rfl

theorem beq_big_little : (Endian.big == Endian.little) = false := rfl

theorem beq_little_little : (Endian.little == Endian.little) = true := rfl

theorem setSeq_getD_front (bs l : List Nat) (i k : Nat) (hk : k < i) :
    (setSeq l i bs).getD k 0 = l.getD k 0 := by
  rw [List.getD_eq_getElem?_getD, List.getD_eq_getElem?_getD, setSeq_getElem?,
    if_neg (by omega)]

theorem set2_getD0 (l : List Nat) (x y : Nat) (h : 0 < l.length) :
    ((l.set 0 x).set 1 y).getD 0 0 = x := by
  rw [List.getD_eq_getElem?_getD, List.getElem?_set_ne (by omega), List.getElem?_set_self',
    List.getElem?_eq_getElem h]
  rfl

theorem set2_getD1 (l : List Nat) (x y : Nat) (h : 1 < l.length) :
    ((l.set 0 x).set 1 y).getD 1 0 = y := by
  rw [List.getD_eq_getElem?_getD, List.getElem?_set_self', List.getElem?_set_ne (by omega),
    List.getElem?_eq_getElem (by simpa using h)]
  rfl

/-- C6: length-prefixed string round trip: on a fresh cursor (position 0,
a full-buffer view, capacity at least 8), `writeUTF("Hello!")` followed by
a rewind to 0 and `readUTF()` returns `"Hello!"`, and the two bytes
preceding the 6-byte payload are the 16-bit encoding of 6 in the cursor's
current endianness: `00 06` big-endian, `06 00` little-endian. -/
theorem C6_writeUTF_roundTrip (s : ByteArray)
    (h0 : s._position = 0) (hoff : s.data.byteOffset = 0)
    (hlen : s.data.byteLength = s.data.buffer.length)
    (hcap : 8 ≤ s.data.byteLength) :
    (utfRoundTrip s).1 = .ok helloUnits ∧
    (utfRoundTrip s).2.data.buffer.getD 0 0 = (if s.endian == Endian.little then 6 else 0) ∧
    (utfRoundTrip s).2.data.buffer.getD 1 0 = (if s.endian == Endian.little then 0 else 6) ∧
    (utfRoundTrip s).2._position = 8 := by
  obtain ⟨⟨buf, off, L⟩, wp, p, e⟩ := s
  simp only at h0 hoff hlen hcap ⊢
  subst h0 hoff hlen
  cases e
  · obtain ⟨w', hw⟩ := writeUTF_hello buf wp buf.length Endian.big rfl hcap
    rw [beq_big_little, if_neg (by simp)] at hw
    have hBlen : (setSeq ((buf.set 0 0).set 1 6) 2 helloBytes).length = buf.length := by
      rw [setSeq_length]
      simp
    have hf0 : (setSeq ((buf.set 0 0).set 1 6) 2 helloBytes).getD 0 0 = 0 := by
      rw [setSeq_getD_front _ _ _ _ (by omega), set2_getD0 _ _ _ (by omega)]
    have hf1 : (setSeq ((buf.set 0 0).set 1 6) 2 helloBytes).getD 1 0 = 6 := by
      rw [setSeq_getD_front _ _ _ _ (by omega), set2_getD1 _ _ _ (by omega)]
    have hgu : DataViewT.getUint16 ⟨setSeq ((buf.set 0 0).set 1 6) 2 helloBytes, 0,
        buf.length⟩ 0 (Endian.big == Endian.little) = .ok 6 := by
      rw [DataViewT.getUint16, if_pos (by simp; omega)]
      rw [beq_big_little]
      simp only [Nat.add_zero, Nat.zero_add, hf0, hf1]
      norm_num
    have hext := setSeq_extract helloBytes ((buf.set 0 0).set 1 6) 2
      (by simp only [List.length_set]; rw [show helloBytes.length = 6 from rfl]; omega)
    rw [show helloBytes.length = 6 from rfl,
      show helloBytes.map (· % 256) = helloBytes from by decide] at hext
    have hread := readUTF_hello (setSeq ((buf.set 0 0).set 1 6) 2 helloBytes) w'
      buf.length Endian.big hBlen.symm hcap hgu hext
    simp only [utfRoundTrip, bind_apply, hw, clear_apply, hread]
    exact ⟨trivial, by rw [beq_big_little]; simpa using hf0,
      by rw [beq_big_little]; simpa using hf1, trivial⟩
  · obtain ⟨w', hw⟩ := writeUTF_hello buf wp buf.length Endian.little rfl hcap
    rw [beq_little_little, if_pos rfl] at hw
    have hBlen : (setSeq ((buf.set 0 6).set 1 0) 2 helloBytes).length = buf.length := by
      rw [setSeq_length]
      simp
    have hf0 : (setSeq ((buf.set 0 6).set 1 0) 2 helloBytes).getD 0 0 = 6 := by
      rw [setSeq_getD_front _ _ _ _ (by omega), set2_getD0 _ _ _ (by omega)]
    have hf1 : (setSeq ((buf.set 0 6).set 1 0) 2 helloBytes).getD 1 0 = 0 := by
      rw [setSeq_getD_front _ _ _ _ (by omega), set2_getD1 _ _ _ (by omega)]
    have hgu : DataViewT.getUint16 ⟨setSeq ((buf.set 0 6).set 1 0) 2 helloBytes, 0,
        buf.length⟩ 0 (Endian.little == Endian.little) = .ok 6 := by
      rw [DataViewT.getUint16, if_pos (by simp; omega)]
      rw [beq_little_little]
      simp only [Nat.add_zero, Nat.zero_add, hf0, hf1]
      norm_num
    have hext := setSeq_extract helloBytes ((buf.set 0 6).set 1 0) 2
      (by simp only [List.length_set]; rw [show helloBytes.length = 6 from rfl]; omega)
    rw [show helloBytes.length = 6 from rfl,
      show helloBytes.map (· % 256) = helloBytes from by decide] at hext
    have hread := readUTF_hello (setSeq ((buf.set 0 6).set 1 0) 2 helloBytes) w'
      buf.length Endian.little hBlen.symm hcap hgu hext
    simp only [utfRoundTrip, bind_apply, hw, clear_apply, hread]
    exact ⟨trivial, by rw [beq_little_little]; simpa using hf0,
      by rw [beq_little_little]; simpa using hf1, trivial⟩

theorem C6_witness :
    (utfRoundTrip newByteArray).1 = .ok helloUnits ∧
    (utfRoundTrip newByteArray).2._position = 8 := by
  have h := C6_writeUTF_roundTrip newByteArray rfl rfl
    (by simp [newByteArray, BUFFER_EXT_SIZE]) (by norm_num [newByteArray, BUFFER_EXT_SIZE])
  exact ⟨h.1, h.2.2.2⟩

theorem writeBytesLoop_eq (count : Nat) : ∀ (i : Nat) (tmp : DataViewT) (s : ByteArray),
    i + count ≤ tmp.byteLength →
    tmp.byteOffset + tmp.byteLength ≤ tmp.buffer.length →
    writeBytesLoop tmp i count s =
      writeUint8ArrayLoop ((tmp.buffer.drop (tmp.byteOffset + i)).take count) s := by
  induction count with
  | zero =>
    intro i tmp s h1 h2
    rw [List.take_zero]
    rfl
  | succ count ih =>
    intro i tmp s h1 h2
    have hlt : tmp.byteOffset + i < tmp.buffer.length := by omega
    rw [List.drop_eq_getElem_cons hlt, List.take_succ_cons]
    have hg : tmp.getUint8 i = .ok (tmp.buffer.getD (tmp.byteOffset + i) 0) := by
      rw [DataViewT.getUint8, if_pos (by omega)]
    have hb : tmp.buffer.getD (tmp.byteOffset + i) 0 = tmp.buffer[tmp.byteOffset + i] := by
      rw [List.getD_eq_getElem?_getD, List.getElem?_eq_getElem hlt]
      rfl
    simp only [writeBytesLoop, writeUint8ArrayLoop, bind_apply]
    rcases hpp : positionPP s with ⟨r1, t1⟩
    cases r1 with
    | error e => rfl
    | ok p =>
      simp only [bind_apply, liftE_apply, hg, hb]
      rcases hset : dvSetUint8 p tmp.buffer[tmp.byteOffset + i] t1 with ⟨r2, t2⟩
      cases r2 with
      | error e => rfl
      | ok u =>
        show writeBytesLoop tmp (i + 1) count t2 =
          writeUint8ArrayLoop (List.take count
            (List.drop (tmp.byteOffset + i + 1) tmp.buffer)) t2
        rw [ih (i + 1) tmp t2 (by omega) h2]
        have h3 : tmp.byteOffset + (i + 1) = tmp.byteOffset + i + 1 := by omega
        rw [h3]

/-- C10: `writeBytes(src, offset, length)` ignores `offset` and `length`
for the copy itself: it writes exactly the first `src.length`
(= `src.write_position`) bytes of `src`'s entire backing buffer, starting
at index 0 (the source view's offset is ignored too), into the destination
at its current position, advancing the destination position by
`src.write_position`; growth is ensured (through `validateBuffer`) only
for `length` bytes, not `position + length` — here `length` is within
capacity, so the capacity is unchanged. -/
theorem C10_writeBytes_spec (dest src : ByteArray) (offset length : Nat)
    (hgrow : ¬ dest.data.byteLength < length)
    (hfit : dest._position + src.write_position ≤ dest.data.byteLength)
    (hpos : 0 < dest.data.byteLength)
    (hDV : dest.data.byteOffset + dest.data.byteLength ≤ dest.data.buffer.length)
    (hsrc : src.write_position ≤ src.data.buffer.length) :
    ∃ d', writeBytes src offset length dest = (.ok (), d') ∧
      d'._position = dest._position + src.write_position ∧
      d'.data.byteLength = dest.data.byteLength ∧
      d'.data = { dest.data with buffer := (setSeq dest.data.buffer
        (dest.data.byteOffset + dest._position)
        (src.data.buffer.take src.write_position)) } ∧
      (∀ i, i < src.write_position →
        d'.data.buffer.getD (dest.data.byteOffset + dest._position + i) 0 =
          src.data.buffer.getD i 0 % 256) ∧
      (∀ offset2 : Nat, writeBytes src offset2 length dest = writeBytes src offset length dest) := by
  have hnb : validateBuffer length dest =
      (.ok (), { dest with write_position := max length dest.write_position }) :=
    validateBuffer_noGrow _ dest hgrow
  have htake : (src.data.buffer.take src.write_position).length = src.write_position := by
    rw [List.length_take]
    omega
  obtain ⟨d', hrun, hp, hd, he⟩ := writeUint8ArrayLoop_ok
    (src.data.buffer.take src.write_position)
    { dest with write_position := max length dest.write_position }
    (by simpa [htake] using hfit) (by simpa using hpos)
  have heq := writeBytesLoop_eq src.write_position 0
    ⟨src.data.buffer, 0, src.data.buffer.length⟩
    { dest with write_position := max length dest.write_position }
    (by simpa using hsrc) (by simp)
  rw [Nat.add_zero, List.drop_zero] at heq
  refine ⟨d', ?_, ?_, ?_, ?_, ?_, fun offset2 => rfl⟩
  · simp only [writeBytes, bind_apply, hnb, heq, hrun]
  · rw [hp, htake]
  · rw [hd]
  · rw [hd]
  · intro i hi
    rw [hd]
    show (setSeq dest.data.buffer (dest.data.byteOffset + dest._position)
      (src.data.buffer.take src.write_position)).getD
        (dest.data.byteOffset + dest._position + i) 0 = src.data.buffer.getD i 0 % 256
    rw [List.getD_eq_getElem?_getD, setSeq_getElem?,
      if_pos ⟨by omega, by rw [htake]; omega, by omega⟩]
    have hidx : dest.data.byteOffset + dest._position + i -
        (dest.data.byteOffset + dest._position) = i := by omega
    rw [hidx]
    have : (src.data.buffer.take src.write_position).getD i 0 = src.data.buffer.getD i 0 := by
      rw [List.getD_eq_getElem?_getD, List.getD_eq_getElem?_getD,
        List.getElem?_take_of_lt hi]
    rw [this]
    rfl

theorem C10_witness :
    ∃ d', writeBytes (fromBuffer [9, 8]) 5 0 (fromBuffer [0, 0, 0, 0]) = (.ok (), d') ∧
      d'._position = 2 ∧
      d'.data.buffer.getD 0 0 = 9 ∧ d'.data.buffer.getD 1 0 = 8 := by
  obtain ⟨d', hrun, hp, hlen, hd, hpt, hoff⟩ :=
    C10_writeBytes_spec (fromBuffer [0, 0, 0, 0]) (fromBuffer [9, 8]) 5 0
      (by decide) (by decide) (by decide) (by decide) (by decide)
  refine ⟨d', hrun, by simpa [fromBuffer] using hp, ?_, ?_⟩
  · have h0 := hpt 0 (by decide)
    simpa [fromBuffer] using h0
  · have h1 := hpt 1 (by decide)
    simpa [fromBuffer] using h1

end AsData